import Mathlib

/-!
Shallow embedding of the `string_wrapper` Rust crate, src/lib.rs.

Modelling conventions:
* bytes are `Nat` (values below 256 in well-formed data), byte buffers are `List Nat`;
* `usize` arithmetic is `Nat` arithmetic; a Rust panic or unwrap failure is `Option.none`;
* `Result` is `Except`; mutating methods return the updated wrapper paired with the result;
* a Rust `char` is its Unicode scalar value as a `Nat` satisfying `ValidCp`;
* a Rust `&str` argument is its byte list, assumed `Utf8WF` where the claim needs it.
-/

/-- Byte at index `i` of a byte list, `0` when out of range.
Rust slice indexing panics out of range; every use below is in bounds
under the hypotheses of the theorems that use it. -/
def byteAt : List Nat → Nat → Nat
  | [], _ => 0
  | b :: _, 0 => b
  | _ :: bs, i + 1 => byteAt bs i

/-- The error enum of src/lib.rs: a single variant `InsufficientLength`
with `expected` and `actual` fields. -/
inductive Error where
  | insufficientLength (expected actual : Nat) : Error
deriving DecidableEq

/-- Rust `char::len_utf8` for a scalar value `c`. -/
def len_utf8 (c : Nat) : Nat :=
  if c < 128 then 1
  else if c < 2048 then 2
  else if c < 65536 then 3
  else 4

/-- The UTF-8 encoding of scalar value `c`, as produced by the standard
formatting path used in `push` (Rust `write!` of a `char`). -/
def encodeChar (c : Nat) : List Nat :=
  if c < 128 then [c]
  else if c < 2048 then [192 + c / 64, 128 + c % 64]
  else if c < 65536 then [224 + c / 4096, 128 + c / 64 % 64, 128 + c % 64]
  else [240 + c / 262144, 128 + c / 4096 % 64, 128 + c / 64 % 64, 128 + c % 64]

/-- Concatenated UTF-8 encoding of a list of scalar values. -/
def encodeList (cs : List Nat) : List Nat := (cs.map encodeChar).flatten

/-- Valid Unicode scalar value: below 0x110000 and not a surrogate. -/
def ValidCp (c : Nat) : Prop := c < 1114112 ∧ (c < 55296 ∨ 57344 ≤ c)

instance (c : Nat) : Decidable (ValidCp c) := by unfold ValidCp; infer_instance

/-- A byte list is well-formed UTF-8 when it is the encoding of some
list of valid Unicode scalar values. -/
def Utf8WF (bs : List Nat) : Prop :=
  ∃ cs : List Nat, (∀ c ∈ cs, ValidCp c) ∧ encodeList cs = bs

/-- `starts_well_formed_utf8_sequence` from src/lib.rs: an ASCII byte or a
leading byte, i.e. not in the range 128..192. -/
def starts_well_formed_utf8_sequence (byte : Nat) : Bool :=
  !(128 ≤ byte && byte < 192)

/-- Overwrite of `buf` starting at `pos` with the bytes of `src`, the effect
of `copy_memory(src, and the extra-bytes slice)` in src/lib.rs. -/
def writeAt (buf : List Nat) (pos : Nat) (src : List Nat) : List Nat :=
  buf.take pos ++ src ++ buf.drop (pos + src.length)

/-- `StringWrapper` from src/lib.rs: a length paired with a backing buffer. -/
structure StringWrapper where
  len : Nat
  buffer : List Nat
deriving DecidableEq

namespace StringWrapper

/-- `StringWrapper::new`: length 0 over the given storage. -/
def new (buffer : List Nat) : StringWrapper := ⟨0, buffer⟩

/-- `StringWrapper::from_raw_parts` (the unsafe constructor, modulo the
caller-asserted invariant). -/
def from_raw_parts (buffer : List Nat) (len : Nat) : StringWrapper := ⟨len, buffer⟩

/-- `StringWrapper::into_buffer`: return the backing storage. -/
def into_buffer (sw : StringWrapper) : List Nat := sw.buffer

/-- `StringWrapper::capacity`: length of the backing buffer. -/
def capacity (sw : StringWrapper) : Nat := sw.buffer.length

/-- `StringWrapper::extra_capacity`: `capacity - len` (usize subtraction;
in-range under the length invariant). -/
def extra_capacity (sw : StringWrapper) : Nat := sw.capacity - sw.len

/-- `Deref::deref` from src/lib.rs: the logical view, the first `len` bytes
of the buffer, reinterpreted as text. -/
def deref (sw : StringWrapper) : List Nat := sw.buffer.take sw.len

/-- `StringWrapper::push`: append one code point if it fits, else report
`InsufficientLength` with expected `len + n` and actual `capacity`. -/
def push (sw : StringWrapper) (c : Nat) : StringWrapper × Except Error Unit :=
  let new_len := sw.len + len_utf8 c
  if new_len ≤ sw.capacity then
    (⟨new_len, writeAt sw.buffer sw.len (encodeChar c)⟩, Except.ok ())
  else
    (sw, Except.error (Error.insufficientLength new_len sw.capacity))

/-- `StringWrapper::push_str`: append a whole string slice if it fits, else
report `InsufficientLength` with expected `s.len()` and actual the extra
capacity. -/
def push_str (sw : StringWrapper) (s : List Nat) : StringWrapper × Except Error Unit :=
  if sw.extra_capacity < s.length then
    (sw, Except.error (Error.insufficientLength s.length sw.extra_capacity))
  else
    (⟨sw.len + s.length, writeAt sw.buffer sw.len s⟩, Except.ok ())

/-- The backward walk inside `push_partial_str`: from index `i`, step down
while the byte there is not a sequence start; `none` models the usize
underflow panic when the walk would step below index 0. -/
def trimLoop (s : List Nat) : Nat → Option Nat
  | 0 => if starts_well_formed_utf8_sequence (byteAt s 0) then some 0 else none
  | i + 1 =>
    if starts_well_formed_utf8_sequence (byteAt s (i + 1)) then some (i + 1)
    else trimLoop s i

/-- Result type of `push_partial_str`, Rust `Result<(), usize>`. -/
inductive PartialResult where
  | ok : PartialResult
  | err : Nat → PartialResult
deriving DecidableEq

/-- `StringWrapper::push_partial_str`: append as much of `s` as fits on a
code-point boundary. `none` models a panic (walk underflow or the internal
`unwrap` of `push_str`). -/
def push_partial_str (sw : StringWrapper) (s : List Nat) :
    Option (StringWrapper × PartialResult) :=
  if sw.extra_capacity < s.length then
    match trimLoop s sw.extra_capacity with
    | none => none
    | some i =>
      match push_str sw (s.take i) with
      | (sw1, Except.ok _) => some (sw1, PartialResult.err i)
      | (_, Except.error _) => none
  else
    match push_str sw s with
    | (sw1, Except.ok _) => some (sw1, PartialResult.ok)
    | (_, Except.error _) => none

/-- `FromStr::from_str` for a `StringWrapper` over `[u8; n]`: fresh zeroed
buffer, then `push_str`. -/
def from_str (n : Nat) (s : List Nat) : Except Error StringWrapper :=
  match push_str (new (List.replicate n 0)) s with
  | (sw1, Except.ok _) => Except.ok sw1
  | (_, Except.error e) => Except.error e

/-- `StringWrapper::from_str_safe` over `[u8; n]`: fresh zeroed buffer, then
`push_partial_str`; `Ok` maps to `some`, `Err` to Rust `None` (inner `none`);
the outer `none` models a panic inside `push_partial_str`. -/
def from_str_safe (n : Nat) (s : List Nat) : Option (Option StringWrapper) :=
  match push_partial_str (new (List.replicate n 0)) s with
  | none => none
  | some (sw1, PartialResult.ok) => some (some sw1)
  | some (_, PartialResult.err _) => some none

/-- `StringWrapper::truncate`: asserts `new_len ≤ len` and, when strictly
shortening, that the byte at `new_len` starts a sequence; `none` models the
assertion panics. The buffer index is in bounds under the length invariant. -/
def truncate (sw : StringWrapper) (new_len : Nat) : Option StringWrapper :=
  if new_len ≤ sw.len then
    if new_len < sw.len then
      if starts_well_formed_utf8_sequence (byteAt sw.buffer new_len) then
        some ⟨new_len, sw.buffer⟩
      else none
    else some ⟨new_len, sw.buffer⟩
  else none

/-- Lexicographic byte comparison, Rust `str::cmp` on the dereferenced views. -/
def lexCompare : List Nat → List Nat → Ordering
  | [], [] => Ordering.eq
  | [], _ :: _ => Ordering.lt
  | _ :: _, [] => Ordering.gt
  | a :: as, b :: bs =>
    if a < b then Ordering.lt
    else if b < a then Ordering.gt
    else lexCompare as bs

/-- `PartialEq for StringWrapper`: equality of the dereferenced logical views. -/
def swBeq (a b : StringWrapper) : Bool := a.deref == b.deref

/-- `Ord for StringWrapper`: comparison of the dereferenced logical views. -/
def swCmp (a b : StringWrapper) : Ordering := lexCompare a.deref b.deref

/-- `Hash for StringWrapper` feeds exactly the dereferenced logical view to
the hasher, so the hasher input is the logical view. -/
def hashInput (a : StringWrapper) : List Nat := a.deref

/-- `fmt::Write::write_str` from src/lib.rs: `push_str`, with any error
collapsed to the unit `fmt::Error` (the payload is discarded). -/
def write_str (sw : StringWrapper) (s : List Nat) : StringWrapper × Except Unit Unit :=
  match push_str sw s with
  | (sw1, Except.ok _) => (sw1, Except.ok ())
  | (sw1, Except.error _) => (sw1, Except.error ())

/-- Sequential `write_str` of the rendered pieces of a format string, as the
`write!` machinery performs, stopping at the first error. -/
def writePieces : StringWrapper → List (List Nat) → StringWrapper × Except Unit Unit
  | sw, [] => (sw, Except.ok ())
  | sw, p :: ps =>
    match write_str sw p with
    | (sw1, Except.ok _) => writePieces sw1 ps
    | (sw1, Except.error _) => (sw1, Except.error ())

/-- The `stack_format!` macro: fresh zeroed buffer of the literal capacity,
`write!` of the rendered pieces, result mapped to the built wrapper. -/
def stack_format (limit : Nat) (pieces : List (List Nat)) : Except Unit StringWrapper :=
  match writePieces (new (List.replicate limit 0)) pieces with
  | (sw1, Except.ok _) => Except.ok sw1
  | (_, Except.error _) => Except.error ()

/-- The central invariant: length within capacity and logical view
well-formed UTF-8. -/
def WF (sw : StringWrapper) : Prop := sw.len ≤ sw.capacity ∧ Utf8WF sw.deref

end StringWrapper

section Helpers

open StringWrapper

lemma byteAt_append_left (a b : List Nat) (k : Nat) (h : k < a.length) :
    byteAt (a ++ b) k = byteAt a k := by
  induction a generalizing k with
  | nil => simp at h
  | cons x xs ih =>
    cases k with
    | zero => rfl
    | succ k =>
      have hk : k < xs.length := by simp [List.length_cons] at h; omega
      exact ih k hk

lemma byteAt_append_right (a b : List Nat) (k : Nat) :
    byteAt (a ++ b) (a.length + k) = byteAt b k := by
  induction a with
  | nil => simp
  | cons x xs ih =>
    have h1 : (x :: xs).length + k = (xs.length + k) + 1 := by
      rw [List.length_cons]; omega
    rw [h1]
    exact ih

lemma byteAt_take (l : List Nat) (n k : Nat) (h : k < n) :
    byteAt (l.take n) k = byteAt l k := by
  induction l generalizing n k with
  | nil => simp
  | cons x xs ih =>
    cases n with
    | zero => omega
    | succ n =>
      cases k with
      | zero => rfl
      | succ k => exact ih n k (by omega)

lemma take_add_append (a b : List Nat) (k : Nat) :
    (a ++ b).take (a.length + k) = a ++ b.take k := by
  induction a with
  | nil => simp
  | cons x xs ih =>
    rw [List.cons_append, List.length_cons]
    rw [show xs.length + 1 + k = (xs.length + k) + 1 from by omega]
    simp only [List.take_succ_cons, List.cons_append]
    rw [ih]

lemma take_len_append (a b : List Nat) : (a ++ b).take a.length = a := by
  simp

lemma drop_len_append (a b : List Nat) : (a ++ b).drop a.length = b := by
  simp

lemma writeAt_length (buf src : List Nat) (pos : Nat) (h : pos + src.length ≤ buf.length) :
    (writeAt buf pos src).length = buf.length := by
  unfold writeAt
  simp only [List.length_append, List.length_take, List.length_drop]
  omega

lemma writeAt_take (buf src : List Nat) (pos : Nat) (h : pos + src.length ≤ buf.length) :
    (writeAt buf pos src).take (pos + src.length) = buf.take pos ++ src := by
  unfold writeAt
  have h2 : (buf.take pos ++ src).length = pos + src.length := by
    simp only [List.length_append, List.length_take]; omega
  have ht := take_len_append (buf.take pos ++ src) (buf.drop (pos + src.length))
  rw [h2] at ht
  rw [ht]

lemma writeAt_take_pos (buf src : List Nat) (pos : Nat) (h : pos ≤ buf.length) :
    (writeAt buf pos src).take pos = buf.take pos := by
  unfold writeAt
  rw [List.append_assoc]
  have hlen : (buf.take pos).length = pos := by rw [List.length_take]; omega
  have ht := take_len_append (buf.take pos) (src ++ buf.drop (pos + src.length))
  rw [hlen] at ht
  rw [ht]

lemma writeAt_middle (buf src : List Nat) (pos : Nat) (h : pos ≤ buf.length) :
    ((writeAt buf pos src).drop pos).take src.length = src := by
  unfold writeAt
  rw [List.append_assoc]
  have hlen : (buf.take pos).length = pos := by rw [List.length_take]; omega
  have hd := drop_len_append (buf.take pos) (src ++ buf.drop (pos + src.length))
  rw [hlen] at hd
  rw [hd, take_len_append]

lemma encodeChar_length (c : Nat) : (encodeChar c).length = len_utf8 c := by
  unfold encodeChar len_utf8
  split_ifs <;> rfl

lemma len_utf8_pos (c : Nat) : 0 < len_utf8 c := by
  unfold len_utf8; split_ifs <;> omega

lemma len_utf8_le_four (c : Nat) : len_utf8 c ≤ 4 := by
  unfold len_utf8; split_ifs <;> omega

lemma encodeChar_start (c : Nat) :
    starts_well_formed_utf8_sequence (byteAt (encodeChar c) 0) = true := by
  unfold encodeChar starts_well_formed_utf8_sequence
  split_ifs with h1 h2 h3 <;> simp [byteAt] <;> omega

lemma encodeChar_cont (c k : Nat) (h0 : 0 < k) (h1 : k < (encodeChar c).length) :
    starts_well_formed_utf8_sequence (byteAt (encodeChar c) k) = false := by
  unfold encodeChar at h1 ⊢
  split_ifs at h1 ⊢ with ha hb hc
  · simp only [List.length_cons, List.length_nil] at h1; omega
  · have hk : k = 1 := by
      simp only [List.length_cons, List.length_nil] at h1; omega
    subst hk
    simp [byteAt, starts_well_formed_utf8_sequence]
    omega
  · have hk : k = 1 ∨ k = 2 := by
      simp only [List.length_cons, List.length_nil] at h1; omega
    rcases hk with hk | hk <;> subst hk <;>
      (simp [byteAt, starts_well_formed_utf8_sequence]; omega)
  · have hk : k = 1 ∨ k = 2 ∨ k = 3 := by
      simp only [List.length_cons, List.length_nil] at h1; omega
    rcases hk with hk | hk | hk <;> subst hk <;>
      (simp [byteAt, starts_well_formed_utf8_sequence]; omega)

lemma utf8WF_nil : Utf8WF [] := ⟨[], by simp, rfl⟩

lemma encodeList_cons (c : Nat) (cs : List Nat) :
    encodeList (c :: cs) = encodeChar c ++ encodeList cs := by
  simp [encodeList]

lemma encodeList_append (cs ds : List Nat) :
    encodeList (cs ++ ds) = encodeList cs ++ encodeList ds := by
  simp [encodeList]

lemma utf8WF_append {a b : List Nat} (h1 : Utf8WF a) (h2 : Utf8WF b) :
    Utf8WF (a ++ b) := by
  obtain ⟨cs1, hv1, he1⟩ := h1
  obtain ⟨cs2, hv2, he2⟩ := h2
  refine ⟨cs1 ++ cs2, ?_, ?_⟩
  · intro c hc
    rcases List.mem_append.mp hc with h | h
    · exact hv1 c h
    · exact hv2 c h
  · rw [encodeList_append, he1, he2]

lemma utf8WF_encodeChar (c : Nat) (h : ValidCp c) : Utf8WF (encodeChar c) :=
  ⟨[c], by simpa using h, by simp [encodeList]⟩

end Helpers

section TrimLemmas

open StringWrapper

lemma trimLoop_hit (bs : List Nat) (n : Nat)
    (h : starts_well_formed_utf8_sequence (byteAt bs n) = true) :
    trimLoop bs n = some n := by
  cases n with
  | zero => simp [trimLoop, h]
  | succ n => simp [trimLoop, h]

lemma trimLoop_miss (bs : List Nat) (n : Nat)
    (h : starts_well_formed_utf8_sequence (byteAt bs (n + 1)) = false) :
    trimLoop bs (n + 1) = trimLoop bs n := by
  simp [trimLoop, h]

lemma trimLoop_some (s : List Nat) (i j : Nat) (h : trimLoop s i = some j) :
    j ≤ i ∧ starts_well_formed_utf8_sequence (byteAt s j) = true := by
  induction i with
  | zero =>
    by_cases hb : starts_well_formed_utf8_sequence (byteAt s 0) = true
    · rw [trimLoop_hit s 0 hb] at h
      injection h with h
      subst h
      exact ⟨Nat.le_refl 0, hb⟩
    · simp only [trimLoop, if_neg hb] at h
      exact Option.noConfusion h
  | succ i ih =>
    by_cases hb : starts_well_formed_utf8_sequence (byteAt s (i + 1)) = true
    · rw [trimLoop_hit s (i + 1) hb] at h
      injection h with h
      subst h
      exact ⟨Nat.le_refl _, hb⟩
    · rw [trimLoop_miss s i (Bool.eq_false_iff.mpr hb)] at h
      obtain ⟨h1, h2⟩ := ih h
      exact ⟨by omega, h2⟩

lemma trimLoop_shift (e rest : List Nat) (i p : Nat) (h : trimLoop rest i = some p) :
    trimLoop (e ++ rest) (e.length + i) = some (e.length + p) := by
  induction i with
  | zero =>
    obtain ⟨hle, hs⟩ := trimLoop_some rest 0 p h
    have hp : p = 0 := by omega
    subst hp
    apply trimLoop_hit
    rw [byteAt_append_right]
    exact hs
  | succ i ih =>
    by_cases hb : starts_well_formed_utf8_sequence (byteAt rest (i + 1)) = true
    · rw [trimLoop_hit rest (i + 1) hb] at h
      injection h with h
      subst h
      apply trimLoop_hit
      rw [byteAt_append_right]
      exact hb
    · have hb' : starts_well_formed_utf8_sequence (byteAt rest (i + 1)) = false :=
        Bool.eq_false_iff.mpr hb
      rw [trimLoop_miss rest i hb'] at h
      have hbyte : starts_well_formed_utf8_sequence (byteAt (e ++ rest) (e.length + i + 1)) = false := by
        rw [show e.length + i + 1 = e.length + (i + 1) from by omega]
        rw [byteAt_append_right]
        exact hb'
      have hstep := trimLoop_miss (e ++ rest) (e.length + i) hbyte
      rw [show e.length + (i + 1) = e.length + i + 1 from by omega, hstep]
      exact ih h

lemma trimLoop_first_block (c : Nat) (rest : List Nat) (i : Nat)
    (h : i < (encodeChar c).length) :
    trimLoop (encodeChar c ++ rest) i = some 0 := by
  induction i with
  | zero =>
    apply trimLoop_hit
    rw [byteAt_append_left _ _ _ h]
    exact encodeChar_start c
  | succ i ih =>
    rw [trimLoop_miss]
    · exact ih (by omega)
    · rw [byteAt_append_left _ _ _ h]
      exact encodeChar_cont c (i + 1) (by omega) h

lemma trim_block : ∀ cs : List Nat, (∀ c ∈ cs, ValidCp c) → ∀ i : Nat,
    i < (encodeList cs).length →
    ∃ p, trimLoop (encodeList cs) i = some p ∧ p ≤ i ∧ i < p + 4 ∧
      Utf8WF ((encodeList cs).take p) := by
  intro cs
  induction cs with
  | nil => intro _ i hi; simp [encodeList] at hi
  | cons c cs ih =>
    intro hv i hi
    rw [encodeList_cons] at hi ⊢
    rcases Nat.lt_or_ge i (encodeChar c).length with hlt | hge
    · refine ⟨0, trimLoop_first_block c _ i hlt, Nat.zero_le _, ?_, by simpa using utf8WF_nil⟩
      have h4 : (encodeChar c).length ≤ 4 := by
        rw [encodeChar_length]; exact len_utf8_le_four c
      omega
    · obtain ⟨i', rfl⟩ : ∃ i', i = (encodeChar c).length + i' :=
        ⟨i - (encodeChar c).length, by omega⟩
      have hi' : i' < (encodeList cs).length := by
        simp only [List.length_append] at hi; omega
      obtain ⟨p, hp, hle, hlt4, hwf⟩ :=
        ih (fun x hx => hv x (List.mem_cons_of_mem _ hx)) i' hi'
      refine ⟨(encodeChar c).length + p, trimLoop_shift _ _ _ _ hp, by omega, by omega, ?_⟩
      rw [take_add_append]
      exact utf8WF_append (utf8WF_encodeChar c (hv c (List.mem_cons_self _ _))) hwf

lemma utf8WF_trim (s : List Nat) (h : Utf8WF s) (i : Nat) (hi : i < s.length) :
    ∃ p, trimLoop s i = some p ∧ p ≤ i ∧ i < p + 4 ∧ Utf8WF (s.take p) ∧
      starts_well_formed_utf8_sequence (byteAt s p) = true := by
  obtain ⟨cs, hv, rfl⟩ := h
  obtain ⟨p, hp, h1, h2, h3⟩ := trim_block cs hv i hi
  exact ⟨p, hp, h1, h2, h3, (trimLoop_some _ _ _ hp).2⟩

lemma encodeList_take_cut : ∀ cs : List Nat, (∀ c ∈ cs, ValidCp c) → ∀ k : Nat,
    k ≤ (encodeList cs).length →
    (k = (encodeList cs).length ∨
      starts_well_formed_utf8_sequence (byteAt (encodeList cs) k) = true) →
    Utf8WF ((encodeList cs).take k) := by
  intro cs
  induction cs with
  | nil =>
    intro _ k hk _
    have : k = 0 := by simpa [encodeList] using hk
    subst this
    simpa using utf8WF_nil
  | cons c cs ih =>
    intro hv k hk hcut
    rw [encodeList_cons] at hk hcut ⊢
    rcases Nat.lt_or_ge k (encodeChar c).length with hlt | hge
    · rcases Nat.eq_zero_or_pos k with h0 | hpos
      · subst h0
        simpa using utf8WF_nil
      · exfalso
        have hb : byteAt (encodeChar c ++ encodeList cs) k = byteAt (encodeChar c) k :=
          byteAt_append_left _ _ _ hlt
        have hcont := encodeChar_cont c k hpos hlt
        rcases hcut with he | hs
        · have hlen : (encodeChar c).length ≤ (encodeChar c ++ encodeList cs).length := by
            simp [List.length_append]
          rw [List.length_append] at he
          omega
        · rw [hb, hcont] at hs
          exact Bool.false_ne_true hs
    · obtain ⟨k', rfl⟩ : ∃ k', k = (encodeChar c).length + k' :=
        ⟨k - (encodeChar c).length, by omega⟩
      rw [take_add_append]
      apply utf8WF_append (utf8WF_encodeChar c (hv c (List.mem_cons_self _ _)))
      apply ih (fun x hx => hv x (List.mem_cons_of_mem _ hx)) k'
      · rw [List.length_append] at hk; omega
      · rcases hcut with he | hs
        · left; rw [List.length_append] at he; omega
        · right; rwa [byteAt_append_right] at hs

lemma utf8WF_take_cut (bs : List Nat) (h : Utf8WF bs) (k : Nat) (hk : k ≤ bs.length)
    (hcut : k = bs.length ∨ starts_well_formed_utf8_sequence (byteAt bs k) = true) :
    Utf8WF (bs.take k) := by
  obtain ⟨cs, hv, rfl⟩ := h
  exact encodeList_take_cut cs hv k hk hcut

end TrimLemmas

section OpLemmas

open StringWrapper

lemma push_str_of_overflow (sw : StringWrapper) (s : List Nat)
    (h : sw.extra_capacity < s.length) :
    sw.push_str s = (sw, Except.error (Error.insufficientLength s.length sw.extra_capacity)) := by
  simp [push_str, h]

lemma push_str_of_fit (sw : StringWrapper) (s : List Nat)
    (h : ¬ sw.extra_capacity < s.length) :
    sw.push_str s = (⟨sw.len + s.length, writeAt sw.buffer sw.len s⟩, Except.ok ()) := by
  simp [push_str, h]

lemma fit_iff (sw : StringWrapper) (s : List Nat) (hlen : sw.len ≤ sw.capacity) :
    (¬ sw.extra_capacity < s.length) ↔ sw.len + s.length ≤ sw.capacity := by
  unfold extra_capacity at *
  omega

lemma push_str_result_deref (sw : StringWrapper) (s : List Nat)
    (hlen : sw.len ≤ sw.capacity) (hfit : sw.len + s.length ≤ sw.capacity) :
    (⟨sw.len + s.length, writeAt sw.buffer sw.len s⟩ : StringWrapper).deref
      = sw.deref ++ s ∧
    (⟨sw.len + s.length, writeAt sw.buffer sw.len s⟩ : StringWrapper).capacity
      = sw.capacity := by
  constructor
  · show (writeAt sw.buffer sw.len s).take (sw.len + s.length) = sw.buffer.take sw.len ++ s
    exact writeAt_take sw.buffer s sw.len hfit
  · show (writeAt sw.buffer sw.len s).length = sw.buffer.length
    exact writeAt_length sw.buffer s sw.len hfit

lemma push_str_wf (sw : StringWrapper) (s : List Nat) (hwf : sw.WF) (hs : Utf8WF s)
    (hfit : sw.len + s.length ≤ sw.capacity) :
    sw.push_str s = (⟨sw.len + s.length, writeAt sw.buffer sw.len s⟩, Except.ok ()) ∧
    (sw.push_str s).1.deref = sw.deref ++ s ∧
    (sw.push_str s).1.WF := by
  have heq := push_str_of_fit sw s ((fit_iff sw s hwf.1).mpr hfit)
  obtain ⟨hd, hc⟩ := push_str_result_deref sw s hwf.1 hfit
  refine ⟨heq, ?_, ?_⟩
  · rw [heq]; exact hd
  · rw [heq]
    refine ⟨?_, ?_⟩
    · show sw.len + s.length ≤ (⟨sw.len + s.length, writeAt sw.buffer sw.len s⟩ : StringWrapper).capacity
      rw [hc]; exact hfit
    · show Utf8WF (⟨sw.len + s.length, writeAt sw.buffer sw.len s⟩ : StringWrapper).deref
      rw [hd]
      exact utf8WF_append hwf.2 hs

end OpLemmas

section ClaimedTheorems

open StringWrapper

/-- C2: for every wrapper and char `c` of UTF-8 length `n`, if `len + n ≤ capacity`
then `push c` succeeds, encodes `c` into the bytes `len` to `len + n` of storage,
leaves the first `len` bytes unchanged, keeps the capacity, and sets the length
to `len + n`; otherwise it fails with `InsufficientLength` whose expected field
is `len + n` and actual field is `capacity`, leaving the wrapper byte-for-byte
unchanged. -/
theorem push_spec (sw : StringWrapper) (c : Nat) (hc : ValidCp c) :
    (sw.len + len_utf8 c ≤ sw.capacity →
      (sw.push c).2 = Except.ok () ∧
      (sw.push c).1.len = sw.len + len_utf8 c ∧
      ((sw.push c).1.buffer.drop sw.len).take (len_utf8 c) = encodeChar c ∧
      (sw.push c).1.buffer.take sw.len = sw.buffer.take sw.len ∧
      (sw.push c).1.capacity = sw.capacity) ∧
    (sw.capacity < sw.len + len_utf8 c →
      sw.push c = (sw, Except.error
        (Error.insufficientLength (sw.len + len_utf8 c) sw.capacity))) := by
  constructor
  · intro h
    have hlen : sw.len ≤ sw.buffer.length := by
      have := len_utf8_pos c
      unfold capacity at h
      omega
    have heq : sw.push c
        = (⟨sw.len + len_utf8 c, writeAt sw.buffer sw.len (encodeChar c)⟩, Except.ok ()) := by
      simp [push, h]
    rw [heq]
    refine ⟨rfl, rfl, ?_, ?_, ?_⟩
    · show ((writeAt sw.buffer sw.len (encodeChar c)).drop sw.len).take (len_utf8 c)
        = encodeChar c
      rw [← encodeChar_length]
      exact writeAt_middle sw.buffer (encodeChar c) sw.len hlen
    · exact writeAt_take_pos sw.buffer (encodeChar c) sw.len hlen
    · show (writeAt sw.buffer sw.len (encodeChar c)).length = sw.buffer.length
      apply writeAt_length
      rw [encodeChar_length]
      exact h
  · intro h
    simp [push, show ¬ (sw.len + len_utf8 c ≤ sw.capacity) from by omega]

/-- C2 witness: a concrete application with capacity 3, length 1, pushing the
two-byte char U+00E9. -/
theorem push_spec_witness :
    ValidCp 233 ∧
    ((⟨1, [97, 0, 0]⟩ : StringWrapper).push 233).1.len = 1 + len_utf8 233 ∧
    (((⟨1, [97, 0, 0]⟩ : StringWrapper).push 233).1.buffer.drop 1).take (len_utf8 233)
      = encodeChar 233 :=
  ⟨by decide,
   ((push_spec ⟨1, [97, 0, 0]⟩ 233 (by decide)).1 (by decide)).2.1,
   ((push_spec ⟨1, [97, 0, 0]⟩ 233 (by decide)).1 (by decide)).2.2.1⟩

/-- C3: for every wrapper and input `s`, `push_str s` succeeds, copies the
bytes of `s` into the trailing region, and advances the length by the byte
length of `s` exactly when that byte length is at most the extra capacity;
otherwise it fails with `InsufficientLength` whose expected field is the
byte length of the input (not the post-append total) and actual field the
extra capacity, leaving the wrapper unchanged (no partial write). -/
theorem push_str_spec (sw : StringWrapper) (s : List Nat) (hlen : sw.len ≤ sw.capacity) :
    (s.length ≤ sw.extra_capacity →
      (sw.push_str s).2 = Except.ok () ∧
      (sw.push_str s).1.len = sw.len + s.length ∧
      (sw.push_str s).1.deref = sw.deref ++ s ∧
      ((sw.push_str s).1.buffer.drop sw.len).take s.length = s ∧
      (sw.push_str s).1.capacity = sw.capacity) ∧
    (sw.extra_capacity < s.length →
      sw.push_str s = (sw, Except.error
        (Error.insufficientLength s.length sw.extra_capacity))) := by
  constructor
  · intro h
    have hnlt : ¬ sw.extra_capacity < s.length := by omega
    have hfit : sw.len + s.length ≤ sw.capacity := (fit_iff sw s hlen).mp hnlt
    have heq := push_str_of_fit sw s hnlt
    obtain ⟨hd, hc⟩ := push_str_result_deref sw s hlen hfit
    rw [heq]
    refine ⟨rfl, rfl, hd, ?_, hc⟩
    show ((writeAt sw.buffer sw.len s).drop sw.len).take s.length = s
    exact writeAt_middle sw.buffer s sw.len (by unfold capacity at hlen; omega)
  · exact push_str_of_overflow sw s

/-- C3 witness: a concrete application with capacity 3, both a fitting and an
overflowing input. -/
theorem push_str_spec_witness :
    ((⟨0, [0, 0, 0]⟩ : StringWrapper).push_str [102, 111, 111]).1.deref
      = [] ++ [102, 111, 111] ∧
    (⟨3, [102, 111, 111]⟩ : StringWrapper).push_str [98]
      = (⟨3, [102, 111, 111]⟩, Except.error (Error.insufficientLength 1 0)) :=
  ⟨(((push_str_spec ⟨0, [0, 0, 0]⟩ [102, 111, 111] (by decide)).1 (by decide)).2.2.1),
   ((push_str_spec ⟨3, [102, 111, 111]⟩ [98] (by decide)).2 (by decide))⟩

/-- C7: for every wrapper satisfying the length invariant and every `new_len`,
`truncate new_len` panics exactly when `new_len` exceeds the current length or
when it is strictly less and the byte of storage at `new_len` is a UTF-8
continuation byte; there is no recoverable error value, and on success the
length becomes `new_len` and nothing else changes. -/
theorem truncate_spec (sw : StringWrapper) (k : Nat) (hlen : sw.len ≤ sw.capacity) :
    (∀ sw1, sw.truncate k = some sw1 → sw1 = ⟨k, sw.buffer⟩) ∧
    (sw.truncate k = none ↔
      (sw.len < k ∨ (k < sw.len ∧
        starts_well_formed_utf8_sequence (byteAt sw.buffer k) = false))) := by
  unfold truncate
  split_ifs with h1 h2 h3
  · constructor
    · intro sw1 hs; injection hs with hs; exact hs.symm
    · constructor
      · intro hh; exact hh.elim
      · rintro (hh | ⟨_, hh⟩)
        · omega
        · rw [h3] at hh; exact Bool.noConfusion hh
  · constructor
    · intro sw1 hs; exact hs.elim
    · constructor
      · intro _
        right
        exact ⟨h2, Bool.eq_false_iff.mpr h3⟩
      · intro _; trivial
  · constructor
    · intro sw1 hs; injection hs with hs; exact hs.symm
    · constructor
      · intro hh; exact hh.elim
      · rintro (hh | ⟨hh, _⟩) <;> omega
  · constructor
    · intro sw1 hs; exact hs.elim
    · constructor
      · intro _; left; omega
      · intro _; trivial

/-- C7 witness: truncating a two-code-point string (one ASCII byte followed by
a two-byte code point) to every relevant index. -/
theorem truncate_spec_witness :
    ((⟨3, [97, 195, 169]⟩ : StringWrapper).truncate 1 = some ⟨1, [97, 195, 169]⟩ →
      (⟨1, [97, 195, 169]⟩ : StringWrapper) = ⟨1, [97, 195, 169]⟩) ∧
    ((⟨3, [97, 195, 169]⟩ : StringWrapper).truncate 2 = none ↔
      (3 < 2 ∨ (2 < 3 ∧
        starts_well_formed_utf8_sequence (byteAt [97, 195, 169] 2) = false))) :=
  ⟨fun h => (truncate_spec ⟨3, [97, 195, 169]⟩ 1 (by decide)).1 _ h,
   (truncate_spec ⟨3, [97, 195, 169]⟩ 2 (by decide)).2⟩

end ClaimedTheorems

section CompareLemmas

open StringWrapper

lemma lexCompare_eq_iff : ∀ x y : List Nat, lexCompare x y = Ordering.eq ↔ x = y
  | [], [] => by simp [lexCompare]
  | [], b :: bs => by simp [lexCompare]
  | a :: as, [] => by simp [lexCompare]
  | a :: as, b :: bs => by
    unfold lexCompare
    split_ifs with h1 h2
    · constructor
      · intro hh; exact absurd hh (by decide)
      · intro hh; injection hh with hx hy; omega
    · constructor
      · intro hh; exact absurd hh (by decide)
      · intro hh; injection hh with hx hy; omega
    · have hab : a = b := by omega
      subst hab
      rw [lexCompare_eq_iff as bs]
      simp

lemma deref_append_tail (pre t : List Nat) :
    (⟨pre.length, pre ++ t⟩ : StringWrapper).deref = pre := by
  show (pre ++ t).take pre.length = pre
  exact take_len_append pre t

end CompareLemmas

section ClaimedTheorems2

open StringWrapper

/-- C8: equality, ordering, and hashing operate only on the logical view:
equality holds iff the dereferenced views are equal, comparison is exactly the
lexicographic comparison of the dereferenced views, equal wrappers feed equal
byte sequences to the hasher, and two wrappers sharing a logical prefix but
with arbitrarily different storage tails (even of different lengths, hence
different capacities) are equal, compare as equal, and hash alike. -/
theorem compare_logical_only (a b : StringWrapper) (pre t1 t2 : List Nat) :
    (swBeq a b = true ↔ a.deref = b.deref) ∧
    swCmp a b = lexCompare a.deref b.deref ∧
    (swCmp a b = Ordering.eq ↔ a.deref = b.deref) ∧
    (swBeq a b = true → a.hashInput = b.hashInput) ∧
    swBeq ⟨pre.length, pre ++ t1⟩ ⟨pre.length, pre ++ t2⟩ = true ∧
    swCmp ⟨pre.length, pre ++ t1⟩ ⟨pre.length, pre ++ t2⟩ = Ordering.eq ∧
    hashInput ⟨pre.length, pre ++ t1⟩ = hashInput ⟨pre.length, pre ++ t2⟩ := by
  have hb : ∀ x y : StringWrapper, swBeq x y = true ↔ x.deref = y.deref := by
    intro x y
    unfold swBeq
    exact beq_iff_eq
  refine ⟨hb a b, rfl, lexCompare_eq_iff a.deref b.deref, ?_, ?_, ?_, ?_⟩
  · intro h
    unfold hashInput
    exact (hb a b).mp h
  · rw [hb]
    rw [deref_append_tail pre t1, deref_append_tail pre t2]
  · show lexCompare (⟨pre.length, pre ++ t1⟩ : StringWrapper).deref
      (⟨pre.length, pre ++ t2⟩ : StringWrapper).deref = Ordering.eq
    rw [deref_append_tail pre t1, deref_append_tail pre t2]
    exact (lexCompare_eq_iff pre pre).mpr rfl
  · unfold hashInput
    rw [deref_append_tail pre t1, deref_append_tail pre t2]

/-- C10: decomposition round trip: `into_buffer` returns the storage with
every byte unchanged, its first `len` bytes are the logical view, and
rebuilding with `from_raw_parts` over the returned storage and the same
length yields the original wrapper, equal to it with the same logical text. -/
theorem decompose_round_trip (sw : StringWrapper) (hwf : sw.WF) :
    sw.into_buffer = sw.buffer ∧
    sw.into_buffer.take sw.len = sw.deref ∧
    from_raw_parts sw.into_buffer sw.len = sw ∧
    swBeq (from_raw_parts sw.into_buffer sw.len) sw = true ∧
    (from_raw_parts sw.into_buffer sw.len).deref = sw.deref := by
  refine ⟨rfl, rfl, rfl, ?_, rfl⟩
  unfold swBeq
  exact beq_self_eq_true _

/-- C10 witness: a wrapper of length 1 over a two-byte buffer whose stale
tail byte is not valid UTF-8. -/
theorem decompose_round_trip_witness :
    from_raw_parts (into_buffer ⟨1, [97, 170]⟩) 1 = ⟨1, [97, 170]⟩ ∧
    (into_buffer ⟨1, [97, 170]⟩).take 1 = StringWrapper.deref ⟨1, [97, 170]⟩ :=
  ⟨(decompose_round_trip ⟨1, [97, 170]⟩ ⟨by decide, ⟨[97], by decide, rfl⟩⟩).2.2.1,
   (decompose_round_trip ⟨1, [97, 170]⟩ ⟨by decide, ⟨[97], by decide, rfl⟩⟩).2.1⟩

end ClaimedTheorems2

section WfLemmas

open StringWrapper

lemma deref_length (sw : StringWrapper) (hlen : sw.len ≤ sw.capacity) :
    sw.deref.length = sw.len := by
  unfold deref
  rw [List.length_take]
  unfold capacity at hlen
  omega

lemma new_wf (buf : List Nat) : (new buf).WF :=
  ⟨Nat.zero_le _, ⟨[], by simp, rfl⟩⟩

lemma push_wf (sw : StringWrapper) (c : Nat) (hwf : sw.WF) (hc : ValidCp c)
    (hfit : sw.len + len_utf8 c ≤ sw.capacity) :
    sw.push c = (⟨sw.len + len_utf8 c, writeAt sw.buffer sw.len (encodeChar c)⟩,
      Except.ok ()) ∧
    (⟨sw.len + len_utf8 c, writeAt sw.buffer sw.len (encodeChar c)⟩ : StringWrapper).deref
      = sw.deref ++ encodeChar c ∧
    (⟨sw.len + len_utf8 c, writeAt sw.buffer sw.len (encodeChar c)⟩ : StringWrapper).WF := by
  have hsrc := encodeChar_length c
  have hfit2 : sw.len + (encodeChar c).length ≤ sw.capacity := by omega
  have hd : (⟨sw.len + (encodeChar c).length, writeAt sw.buffer sw.len (encodeChar c)⟩ :
      StringWrapper).deref = sw.deref ++ encodeChar c :=
    (push_str_result_deref sw (encodeChar c) hwf.1 hfit2).1
  have hcap : (⟨sw.len + (encodeChar c).length, writeAt sw.buffer sw.len (encodeChar c)⟩ :
      StringWrapper).capacity = sw.capacity :=
    (push_str_result_deref sw (encodeChar c) hwf.1 hfit2).2
  rw [hsrc] at hd hcap
  refine ⟨?_, hd, ⟨?_, ?_⟩⟩
  · simp [push, hfit]
  · rw [hcap]; exact hfit
  · rw [hd]
    exact utf8WF_append hwf.2 (utf8WF_encodeChar c hc)

lemma truncate_wf (sw : StringWrapper) (k : Nat) (hwf : sw.WF) (sw1 : StringWrapper)
    (h : sw.truncate k = some sw1) : sw1.WF := by
  have hdl : sw.deref.length = sw.len := deref_length sw hwf.1
  have hcap : sw.len ≤ sw.buffer.length := hwf.1
  unfold truncate at h
  split_ifs at h with h1 h2 h3
  · injection h with h
    subst h
    refine ⟨?_, ?_⟩
    · show k ≤ sw.buffer.length
      omega
    · show Utf8WF (sw.buffer.take k)
      have hkk : sw.buffer.take k = sw.deref.take k := by
        unfold deref
        rw [List.take_take]
        congr 1
        omega
      rw [hkk]
      apply utf8WF_take_cut sw.deref hwf.2 k (by omega)
      right
      rw [show byteAt sw.deref k = byteAt sw.buffer k from byteAt_take sw.buffer sw.len k h2]
      exact h3
  · injection h with h
    subst h
    have hk : k = sw.len := by omega
    subst hk
    exact ⟨hwf.1, hwf.2⟩

lemma push_partial_cases (sw : StringWrapper) (s : List Nat) (hwf : sw.WF)
    (hs : Utf8WF s) :
    (¬ sw.extra_capacity < s.length →
      sw.push_partial_str s
        = some (⟨sw.len + s.length, writeAt sw.buffer sw.len s⟩, PartialResult.ok) ∧
      (⟨sw.len + s.length, writeAt sw.buffer sw.len s⟩ : StringWrapper).deref
        = sw.deref ++ s ∧
      (⟨sw.len + s.length, writeAt sw.buffer sw.len s⟩ : StringWrapper).WF) ∧
    (sw.extra_capacity < s.length →
      ∃ i, sw.push_partial_str s
          = some (⟨sw.len + i, writeAt sw.buffer sw.len (s.take i)⟩, PartialResult.err i) ∧
        trimLoop s sw.extra_capacity = some i ∧
        i ≤ sw.extra_capacity ∧ sw.extra_capacity < i + 4 ∧ i < s.length ∧
        Utf8WF (s.take i) ∧
        (⟨sw.len + i, writeAt sw.buffer sw.len (s.take i)⟩ : StringWrapper).deref
          = sw.deref ++ s.take i ∧
        (⟨sw.len + i, writeAt sw.buffer sw.len (s.take i)⟩ : StringWrapper).WF) := by
  constructor
  · intro hnot
    have hfit := (fit_iff sw s hwf.1).mp hnot
    have heq := push_str_of_fit sw s hnot
    obtain ⟨hd, hc⟩ := push_str_result_deref sw s hwf.1 hfit
    refine ⟨?_, hd, ⟨?_, ?_⟩⟩
    · unfold push_partial_str
      rw [if_neg hnot, heq]
    · show sw.len + s.length
        ≤ (⟨sw.len + s.length, writeAt sw.buffer sw.len s⟩ : StringWrapper).capacity
      rw [hc]; exact hfit
    · show Utf8WF (⟨sw.len + s.length, writeAt sw.buffer sw.len s⟩ : StringWrapper).deref
      rw [hd]
      exact utf8WF_append hwf.2 hs
  · intro hlt
    obtain ⟨p, hp, hle, hlt4, hwfp, hstart⟩ := utf8WF_trim s hs sw.extra_capacity hlt
    have htl : (s.take p).length = p := by
      rw [List.length_take]; omega
    have hnot : ¬ sw.extra_capacity < (s.take p).length := by rw [htl]; omega
    have hfit : sw.len + p ≤ sw.capacity := by
      have h1 := hwf.1
      unfold extra_capacity at hle
      omega
    have heq := push_str_of_fit sw (s.take p) hnot
    rw [htl] at heq
    obtain ⟨hd, hc⟩ := push_str_result_deref sw (s.take p) hwf.1 (by rw [htl]; exact hfit)
    rw [htl] at hd hc
    refine ⟨p, ?_, hp, hle, hlt4, by omega, hwfp, hd, ⟨?_, ?_⟩⟩
    · unfold push_partial_str
      rw [if_pos hlt, hp]
      simp [heq]
    · show sw.len + p
        ≤ (⟨sw.len + p, writeAt sw.buffer sw.len (s.take p)⟩ : StringWrapper).capacity
      rw [hc]; exact hfit
    · show Utf8WF (⟨sw.len + p, writeAt sw.buffer sw.len (s.take p)⟩ : StringWrapper).deref
      rw [hd]
      exact utf8WF_append hwf.2 hwfp

end WfLemmas

section ClaimedTheorems3

open StringWrapper

/-- C4: for a well-formed wrapper and well-formed UTF-8 input that does not
wholly fit, the backward walk of `push_partial_str` starting at the cut index
(the extra capacity) terminates without underflow at an index `j` at most 3
below the start, `j` is a valid cut point of `s` (the byte there starts a
sequence and the prefix up to `j` is well-formed UTF-8, so no multi-byte code
point is split), the trimmed prefix fits so the internal `push_str` returns
`Ok` (its unwrap cannot fail), and the whole call does not panic. -/
theorem trim_walk_safe (sw : StringWrapper) (s : List Nat) (hwf : sw.WF)
    (hs : Utf8WF s) (hlt : sw.extra_capacity < s.length) :
    ∃ j, trimLoop s sw.extra_capacity = some j ∧
      j ≤ sw.extra_capacity ∧
      sw.extra_capacity ≤ j + 3 ∧
      starts_well_formed_utf8_sequence (byteAt s j) = true ∧
      Utf8WF (s.take j) ∧
      (sw.push_str (s.take j)).2 = Except.ok () ∧
      sw.push_partial_str s ≠ none := by
  obtain ⟨p, hp, hle, hlt4, hwfp, hstart⟩ := utf8WF_trim s hs sw.extra_capacity hlt
  have htl : (s.take p).length = p := by
    rw [List.length_take]; omega
  have hnot : ¬ sw.extra_capacity < (s.take p).length := by rw [htl]; omega
  have hps := push_str_of_fit sw (s.take p) hnot
  refine ⟨p, hp, hle, by omega, hstart, hwfp, by rw [hps], ?_⟩
  unfold push_partial_str
  rw [if_pos hlt, hp]
  simp [hps]

/-- C4 witness: capacity 4, empty wrapper, five-byte ASCII input. -/
theorem trim_walk_safe_witness :
    StringWrapper.push_partial_str ⟨0, [0, 0, 0, 0]⟩ [104, 101, 108, 108, 111] ≠ none := by
  obtain ⟨j, h⟩ := trim_walk_safe ⟨0, [0, 0, 0, 0]⟩ [104, 101, 108, 108, 111]
    ⟨by decide, ⟨[], by decide, rfl⟩⟩
    ⟨[104, 101, 108, 108, 111], by decide, rfl⟩
    (by decide)
  exact h.2.2.2.2.2.2

/-- C5 counterexample: with remaining capacity 4 and the five-byte input
"hello", `push_partial_str` returns `Err 4`, where 4 is the number of bytes
actually placed; the number of bytes truncated from the tail of the input is
5 - 4 = 1, which differs from the carried value, refuting the claim that the
error-shaped result carries the truncated-tail count. -/
theorem push_partial_counterexample :
    StringWrapper.push_partial_str ⟨0, [0, 0, 0, 0]⟩ [104, 101, 108, 108, 111]
      = some (⟨4, [104, 101, 108, 108]⟩, PartialResult.err 4) ∧
    [104, 101, 108, 108, 111].length - 4 = 1 ∧ ¬ (4 = 1) := by decide

/-- C5 (amended): when the whole input fits, `push_partial_str` returns the
plain success value; when it does not wholly fit, it returns the error-shaped
result `Err i` where `i` is the cut index, i.e. the number of input bytes
actually placed (the bytes truncated from the tail number `s.length - i`,
which is not the carried value); the length advances by exactly `i` and the
placed bytes are the prefix of the input of length `i`. -/
theorem push_partial_spec (sw : StringWrapper) (s : List Nat) (hwf : sw.WF)
    (hs : Utf8WF s) :
    (s.length ≤ sw.extra_capacity →
      sw.push_partial_str s
        = some (⟨sw.len + s.length, writeAt sw.buffer sw.len s⟩, PartialResult.ok)) ∧
    (sw.extra_capacity < s.length →
      ∃ i, sw.push_partial_str s
          = some (⟨sw.len + i, writeAt sw.buffer sw.len (s.take i)⟩, PartialResult.err i) ∧
        i ≤ sw.extra_capacity ∧ i < s.length ∧
        (⟨sw.len + i, writeAt sw.buffer sw.len (s.take i)⟩ : StringWrapper).deref
          = sw.deref ++ s.take i) := by
  obtain ⟨hfits, hover⟩ := push_partial_cases sw s hwf hs
  constructor
  · intro h
    exact (hfits (by omega)).1
  · intro h
    obtain ⟨i, he, _, hle, _, hlen2, _, hd, _⟩ := hover h
    exact ⟨i, he, hle, hlen2, hd⟩

/-- C5 witness: a fitting input on a capacity-2 wrapper. -/
theorem push_partial_spec_witness :
    StringWrapper.push_partial_str ⟨0, [0, 0]⟩ [97]
      = some (⟨0 + 1, writeAt [0, 0] 0 [97]⟩, PartialResult.ok) :=
  (push_partial_spec ⟨0, [0, 0]⟩ [97] ⟨by decide, ⟨[], by decide, rfl⟩⟩
    ⟨[97], by decide, rfl⟩).1 (by decide)

end ClaimedTheorems3

section FromStrSafeLemmas

open StringWrapper

lemma extra_capacity_new (n : Nat) : (new (List.replicate n 0)).extra_capacity = n := by
  unfold extra_capacity capacity new
  simp

lemma deref_new (buf : List Nat) : (new buf).deref = [] := rfl

end FromStrSafeLemmas

section ClaimedTheorems4

open StringWrapper

/-- C6 counterexample: `from_str_safe` DOES fail on inputs that do not wholly
fit: modelled Rust `None` is the inner `none`. With capacity 3 and the
six-byte input "foobar" it returns `None` (matching the crate doctest), and
with capacity 0 and the non-empty input "a" it also returns `None` rather
than a successfully built empty string. -/
theorem from_str_safe_counterexample :
    from_str_safe 3 [102, 111, 111, 98, 97, 114] = some none ∧
    from_str_safe 0 [97] = some none := by decide

/-- C6 (amended): `from_str_safe` returns `Some` exactly when the input wholly
fits (byte length at most the capacity), in which case the built wrapper holds
the whole input; whenever the input does not wholly fit — including capacity 0
with non-empty input — it returns `None` (because `push_partial_str` reports
`Err` even for a successful partial placement); it never panics on well-formed
UTF-8 input. -/
theorem from_str_safe_spec (n : Nat) (s : List Nat) (hs : Utf8WF s) :
    (s.length ≤ n →
      ∃ sw1, from_str_safe n s = some (some sw1) ∧ sw1.len = s.length ∧
        sw1.deref = s) ∧
    (n < s.length → from_str_safe n s = some none) ∧
    from_str_safe n s ≠ none := by
  have hne : (new (List.replicate n 0)).extra_capacity = n := extra_capacity_new n
  obtain ⟨hfits, hover⟩ := push_partial_cases (new (List.replicate n 0)) s (new_wf _) hs
  have case1 : s.length ≤ n →
      ∃ sw1, from_str_safe n s = some (some sw1) ∧ sw1.len = s.length ∧
        sw1.deref = s := by
    intro h
    have hnot : ¬ (new (List.replicate n 0)).extra_capacity < s.length := by
      rw [hne]; omega
    obtain ⟨he, hd, hw⟩ := hfits hnot
    refine ⟨⟨(new (List.replicate n 0)).len + s.length,
      writeAt (new (List.replicate n 0)).buffer (new (List.replicate n 0)).len s⟩,
      ?_, ?_, ?_⟩
    · unfold from_str_safe
      rw [he]
    · show (new (List.replicate n 0)).len + s.length = s.length
      simp [new]
    · rw [hd, deref_new]
      simp
  have case2 : n < s.length → from_str_safe n s = some none := by
    intro h
    obtain ⟨i, he, _⟩ := hover (by rw [hne]; omega)
    unfold from_str_safe
    rw [he]
  refine ⟨case1, case2, ?_⟩
  by_cases hcv : n < s.length
  · rw [case2 hcv]
    simp
  · obtain ⟨sw1, he, _, _⟩ := case1 (by omega)
    rw [he]
    simp

/-- C6 witness: a fitting one-byte input on capacity 2. -/
theorem from_str_safe_spec_witness :
    ∃ sw1, from_str_safe 2 [97] = some (some sw1) ∧ sw1.len = 1 ∧
      sw1.deref = [97] :=
  (from_str_safe_spec 2 [97] ⟨[97], by decide, rfl⟩).1 (by decide)

end ClaimedTheorems4

section WriteLemmas

open StringWrapper

lemma write_str_fit (sw : StringWrapper) (p : List Nat)
    (h : ¬ sw.extra_capacity < p.length) :
    write_str sw p = (⟨sw.len + p.length, writeAt sw.buffer sw.len p⟩, Except.ok ()) := by
  unfold write_str
  rw [push_str_of_fit sw p h]

lemma write_str_overflow (sw : StringWrapper) (p : List Nat)
    (h : sw.extra_capacity < p.length) :
    write_str sw p = (sw, Except.error ()) := by
  unfold write_str
  rw [push_str_of_overflow sw p h]

lemma writePieces_spec : ∀ (ps : List (List Nat)) (sw : StringWrapper),
    sw.len ≤ sw.capacity →
    ((sw.len + (ps.map List.length).sum ≤ sw.capacity →
      ∃ sw1, writePieces sw ps = (sw1, Except.ok ()) ∧
        sw1.len = sw.len + (ps.map List.length).sum ∧
        sw1.deref = sw.deref ++ ps.flatten ∧
        sw1.capacity = sw.capacity) ∧
    (sw.capacity < sw.len + (ps.map List.length).sum →
      (writePieces sw ps).2 = Except.error ())) := by
  intro ps
  induction ps with
  | nil =>
    intro sw hlen
    constructor
    · intro _
      exact ⟨sw, rfl, by simp, by simp, rfl⟩
    · intro h
      have hfalse : False := by simp at h; omega
      exact hfalse.elim
  | cons p ps ih =>
    intro sw hlen
    by_cases hp : sw.extra_capacity < p.length
    · have hcap : sw.capacity < sw.len + p.length := by
        unfold extra_capacity at hp
        omega
      constructor
      · intro h
        have hfalse : False := by
          simp only [List.map_cons, List.sum_cons] at h
          omega
        exact hfalse.elim
      · intro _
        unfold writePieces
        rw [write_str_overflow sw p hp]
    · have hfit : sw.len + p.length ≤ sw.capacity := (fit_iff sw p hlen).mp hp
      have heq := write_str_fit sw p hp
      obtain ⟨hd, hc⟩ := push_str_result_deref sw p hlen hfit
      have hlen1 : (⟨sw.len + p.length, writeAt sw.buffer sw.len p⟩ :
          StringWrapper).len ≤ (⟨sw.len + p.length, writeAt sw.buffer sw.len p⟩ :
          StringWrapper).capacity := by
        show sw.len + p.length
          ≤ (⟨sw.len + p.length, writeAt sw.buffer sw.len p⟩ : StringWrapper).capacity
        rw [hc]; exact hfit
      obtain ⟨ihfit, ihover⟩ := ih ⟨sw.len + p.length, writeAt sw.buffer sw.len p⟩ hlen1
      constructor
      · intro h
        have hsum : sw.len + p.length + (ps.map List.length).sum ≤ sw.capacity := by
          simp only [List.map_cons, List.sum_cons] at h
          omega
        obtain ⟨sw1, hw1, hl1, hd1, hc1⟩ := ihfit (by rw [hc]; exact hsum)
        refine ⟨sw1, ?_, ?_, ?_, ?_⟩
        · unfold writePieces
          rw [heq]
          exact hw1
        · rw [hl1]
          show sw.len + p.length + (ps.map List.length).sum
            = sw.len + (List.map List.length (p :: ps)).sum
          simp only [List.map_cons, List.sum_cons]
          omega
        · rw [hd1, hd]
          simp [List.append_assoc]
        · rw [hc1, hc]
      · intro h
        have hsum : sw.capacity < sw.len + p.length + (ps.map List.length).sum := by
          simp only [List.map_cons, List.sum_cons] at h
          omega
        have h2 := ihover (by rw [hc]; exact hsum)
        unfold writePieces
        rw [heq]
        exact h2

end WriteLemmas

section ClaimedTheorems5

open StringWrapper

/-- C9 counterexample: the formatted-build path returns a unit `fmt::Error`
that carries no byte counts. Two overflowing builds whose underlying
`push_str` failures carry different expected/actual pairs produce the very
same error value, so the returned failure is not the `InsufficientLength`
failure carrying the expected/actual counts that the claim describes. -/
theorem stack_format_counterexample :
    stack_format 0 [[97]] = Except.error () ∧
    stack_format 1 [[98, 98, 98]] = Except.error () ∧
    ((new (List.replicate 0 0)).push_str [97]).2
      = Except.error (Error.insufficientLength 1 0) ∧
    ((new (List.replicate 1 0)).push_str [98, 98, 98]).2
      = Except.error (Error.insufficientLength 3 1) ∧
    ¬ (Error.insufficientLength 1 0 = Error.insufficientLength 3 1) :=
  ⟨rfl, rfl, rfl, rfl, by decide⟩

/-- C9 (amended): the formatted-build helper returns the built string holding
exactly the rendered text when its total byte length fits the capacity, and
otherwise returns the unit formatting failure (which does not carry the
expected/actual byte counts — those are discarded by `write_str`). -/
theorem stack_format_spec (limit : Nat) (pieces : List (List Nat)) :
    ((pieces.map List.length).sum ≤ limit →
      ∃ sw1, stack_format limit pieces = Except.ok sw1 ∧
        sw1.len = (pieces.map List.length).sum ∧
        sw1.deref = pieces.flatten ∧ sw1.capacity = limit) ∧
    (limit < (pieces.map List.length).sum →
      stack_format limit pieces = Except.error ()) := by
  have hcap0 : (new (List.replicate limit 0)).capacity = limit := by
    unfold capacity new
    simp
  have hlen0 : (new (List.replicate limit 0)).len = 0 := rfl
  obtain ⟨hfit, hover⟩ :=
    writePieces_spec pieces (new (List.replicate limit 0)) (by rw [hlen0, hcap0]; omega)
  constructor
  · intro h
    obtain ⟨sw1, hw1, hl1, hd1, hc1⟩ := hfit (by rw [hlen0, hcap0]; omega)
    refine ⟨sw1, ?_, ?_, ?_, ?_⟩
    · unfold stack_format
      rw [hw1]
    · rw [hl1, hlen0]
      omega
    · rw [hd1, deref_new]
      simp
    · rw [hc1, hcap0]
  · intro h
    have h2 := hover (by rw [hlen0, hcap0]; omega)
    unfold stack_format
    rcases hp : writePieces (new (List.replicate limit 0)) pieces with ⟨swx, ex⟩
    rw [hp] at h2
    cases ex with
    | ok u => simp at h2
    | error e => rfl

/-- C9 witness: a two-byte rendering into a one-byte buffer fails. -/
theorem stack_format_spec_witness :
    stack_format 1 [[97, 98]] = Except.error () :=
  (stack_format_spec 1 [[97, 98]]).2 (by decide)

end ClaimedTheorems5

section InvariantLemmas

open StringWrapper

lemma from_str_wf (n : Nat) (s : List Nat) (hs : Utf8WF s) (sw1 : StringWrapper)
    (h : from_str n s = Except.ok sw1) : sw1.WF := by
  by_cases hlt : (new (List.replicate n 0)).extra_capacity < s.length
  · unfold from_str at h
    rw [push_str_of_overflow _ _ hlt] at h
    simp at h
  · have hfit := (fit_iff (new (List.replicate n 0)) s (new_wf _).1).mp hlt
    obtain ⟨heq, hd, hw⟩ := push_str_wf (new (List.replicate n 0)) s (new_wf _) hs hfit
    unfold from_str at h
    rw [heq] at h
    simp at h
    rw [heq] at hw
    simp at hw
    rw [← h]
    exact hw

lemma from_str_safe_wf (n : Nat) (s : List Nat) (hs : Utf8WF s) (sw1 : StringWrapper)
    (h : from_str_safe n s = some (some sw1)) : sw1.WF := by
  obtain ⟨hfits, hover⟩ := push_partial_cases (new (List.replicate n 0)) s (new_wf _) hs
  by_cases hlt : (new (List.replicate n 0)).extra_capacity < s.length
  · obtain ⟨i, he, _⟩ := hover hlt
    unfold from_str_safe at h
    rw [he] at h
    simp at h
  · obtain ⟨he, hd, hw⟩ := hfits hlt
    unfold from_str_safe at h
    rw [he] at h
    simp at h
    rw [← h]
    exact hw

end InvariantLemmas

section ClaimedTheorems6

open StringWrapper

/-- C1: every wrapper obtained from a successful construction (`new`,
`from_str`, `from_str_safe`) or left by a successful mutating operation
(`push`, `push_str`, `push_partial_str`, `truncate`) satisfies the central
invariant: its length is at most its capacity and its logical view (the
first `len` bytes) is well-formed UTF-8, so the unchecked text
reinterpretation in `deref` is valid. -/
theorem invariant_preserved (sw : StringWrapper) (s : List Nat) (c : Nat)
    (buf : List Nat) (hwf : sw.WF) (hs : Utf8WF s) (hc : ValidCp c) :
    (new buf).WF ∧
    (∀ sw1, sw.push c = (sw1, Except.ok ()) → sw1.WF) ∧
    (∀ sw1, sw.push_str s = (sw1, Except.ok ()) → sw1.WF) ∧
    (∀ sw1 r, sw.push_partial_str s = some (sw1, r) → sw1.WF) ∧
    (∀ k sw1, sw.truncate k = some sw1 → sw1.WF) ∧
    (∀ n sw1, from_str n s = Except.ok sw1 → sw1.WF) ∧
    (∀ n sw1, from_str_safe n s = some (some sw1) → sw1.WF) := by
  refine ⟨new_wf buf, ?_, ?_, ?_, ?_, ?_, ?_⟩
  · intro sw1 h
    by_cases hfit : sw.len + len_utf8 c ≤ sw.capacity
    · obtain ⟨heq, _, hw⟩ := push_wf sw c hwf hc hfit
      rw [heq] at h
      injection h with h1 h2
      exact h1 ▸ hw
    · simp [push, hfit] at h
  · intro sw1 h
    by_cases hlt : sw.extra_capacity < s.length
    · rw [push_str_of_overflow sw s hlt] at h
      simp at h
    · obtain ⟨heq, hd, hw⟩ := push_str_wf sw s hwf hs ((fit_iff sw s hwf.1).mp hlt)
      have h1 : (sw.push_str s).1 = sw1 := by rw [h]
      rw [← h1]
      exact hw
  · intro sw1 r h
    obtain ⟨hfits, hover⟩ := push_partial_cases sw s hwf hs
    by_cases hlt : sw.extra_capacity < s.length
    · obtain ⟨i, he, _, _, _, _, _, _, hw⟩ := hover hlt
      rw [he] at h
      injection h with h2
      injection h2 with ha hb
      exact ha ▸ hw
    · obtain ⟨he, hd, hw⟩ := hfits hlt
      rw [he] at h
      injection h with h2
      injection h2 with ha hb
      exact ha ▸ hw
  · intro k sw1 h
    exact truncate_wf sw k hwf sw1 h
  · intro n sw1 h
    exact from_str_wf n s hs sw1 h
  · intro n sw1 h
    exact from_str_safe_wf n s hs sw1 h

/-- C1 witness: the invariant instance produced for a concrete well-formed
wrapper, input, char and fresh buffer; the extracted conjunct shows `new`
over a one-byte buffer is well-formed. -/
theorem invariant_preserved_witness : (new [0]).WF :=
  (invariant_preserved ⟨1, [97, 0]⟩ [98] 99 [0]
    ⟨by decide, ⟨[97], by decide, rfl⟩⟩ ⟨[98], by decide, rfl⟩ (by decide)).1

end ClaimedTheorems6
